import Mathlib

/-!
Verification development for the pattern-matching engine of the LVK chatbot
(`src/chatbot/nlp-engine/tree.cpp`).  The match tree, its builder, the scored
depth-first search, the loop detector, conditional output selection and
recursive template expansion are embedded as executable Lean definitions, and
the specified properties are proved (or refuted) about them.

Modelling notes.  The repository file `tree.cpp` is the authority for every
function it defines (`add`, `addNode`, `getResponses`, `scoredDFS`,
`handleEndWord`, `getValidOutput`, `expandVars`, `getRecResponse`,
`parseUserInput`, `parseRuleInput`, `filterSymbols`, `parseExactMatch`,
`getOmapId`, `getRuleId`, `getInputIndex`, `highScoreFirst`).  Collaborating
classes that are not part of the sources (`Word`, `Node`, `VarStack`,
`ScoringAlgorithm`, `MatchPolicy`, `CondOutputList`, the variable-reference
parser, the lemmatiser) are modelled from the specification; each such
definition carries a doc comment saying so.  Heap nodes with parent and child
pointers are embedded as an arena: a list of `Node` records addressed by
`Nat` indices, index 0 being the root.
-/

namespace Nlp

/-- Modelled from the spec: a normalised token produced by the external
lemmatiser (`word.h` is not among the sources).  Carries the original text,
the normalised text, the lemma and the part-of-speech tag. -/
structure Word where
  origWord : String
  normWord : String
  lemm : String
  posTag : String
deriving Repr, DecidableEq

instance : Inhabited Word := ⟨⟨"", "", "", ""⟩⟩

/-- Token of the zero-or-more wildcard. -/
def STAR_OP : String := "*"

/-- Token of the one-or-more wildcard. -/
def PLUS_OP : String := "+"

/-- Modelled from the spec: a token is a wildcard when its original text is
`*` or `+` (the two tokens with special meaning). -/
def Word.isWildcard (w : Word) : Bool :=
  w.origWord == STAR_OP || w.origWord == PLUS_OP

/-- Open square bracket. -/
def lbrChar : Char := Char.ofNat 91

/-- Close square bracket. -/
def rbrChar : Char := Char.ofNat 93

/-- Modelled from the spec: a token of the form `[name]` is a variable. -/
def Word.isVariable (w : Word) : Bool :=
  let cs := w.origWord.toList
  cs.head? == some lbrChar && cs.getLast? == some rbrChar && decide (2 ≤ cs.length)

/-- Modelled from the spec: symbol tokens (punctuation, no alphanumeric
content) are filtered out before insertion and querying.  Wildcard and
variable tokens are never symbols. -/
def Word.isSymbol (w : Word) : Bool :=
  !w.isWildcard && !w.isVariable && w.normWord.toList.all (fun c => !c.isAlphanum)

/-- Modelled from the spec: a plain literal word token. -/
def Word.isWord (w : Word) : Bool :=
  !w.isSymbol && !w.isWildcard && !w.isVariable

/-- Modelled from the spec: a condition guarding an output template; it may
reference captured variables (`condoutput.h` is not among the sources). -/
inductive Cond where
  | ctrue : Cond
  | varEq (name value : String) : Cond
deriving Repr, DecidableEq

/-- Modelled from the spec: a template is a sequence of literal runs, plain
variable references and recursive variable references, as decomposed by the
external variable-reference parser. -/
inductive TmplPart where
  | lit (s : String) : TmplPart
  | pvar (name : String) : TmplPart
  | rvar (name : String) : TmplPart
deriving Repr, DecidableEq

/-- Template of one output. -/
abbrev Template := List TmplPart

/-- Modelled from the spec: an ordered list of condition and template pairs;
the first satisfied condition wins. -/
structure CondOutput where
  cond : Cond
  tmpl : Template
deriving Repr, DecidableEq

/-- Ordered conditional output list of a rule. -/
abbrev CondOutputList := List CondOutput

/-- Node payload: root, literal word, wildcard with its minimum token count,
or named variable.  Modelled from the spec (`node.h` is not among the
sources): `+` has `min = 1`, `*` has `min = 0`. -/
inductive NodeKind where
  | root : NodeKind
  | word (w : Word) : NodeKind
  | wildcard (origWord : String) (min : Nat) : NodeKind
  | var (varName : String) : NodeKind
deriving Repr, DecidableEq

/-- One node of the match tree: a payload, a parent back-reference, an ordered
child list (which may contain the node itself as a self-loop edge, and nodes
spliced in by the zero-hop shortcut) and the output map from packed
`(ruleId, inputIdx)` keys to conditional output lists.  The output map is kept
sorted by key with unique keys, mirroring `QMap`. -/
structure Node where
  kind : NodeKind
  parent : Nat
  childs : List Nat
  omap : List (Nat × CondOutputList)
deriving Repr, DecidableEq

instance : Inhabited Node := ⟨⟨NodeKind.root, 0, [], []⟩⟩

/-- The match tree: an arena of nodes, index 0 being the root. -/
structure Tree where
  nodes : List Node
deriving Repr, DecidableEq

/-- A tree holding only the root node. -/
def emptyTree : Tree := ⟨[⟨NodeKind.root, 0, [], []⟩]⟩

/-- Number of nodes in the arena. -/
def Tree.size (t : Tree) : Nat := t.nodes.length

/-- Node at index `i` (default node when out of range). -/
def Tree.node (t : Tree) (i : Nat) : Node := t.nodes.getD i default

/-- Replace the node at index `i` (no-op when out of range). -/
def Tree.setNode (t : Tree) (i : Nat) (n : Node) : Tree := ⟨t.nodes.set i n⟩

/-- Whether the node at index `i` is a wildcard node. -/
def Tree.isWildcardAt (t : Tree) (i : Nat) : Bool :=
  match (t.node i).kind with
  | NodeKind.wildcard _ _ => true
  | _ => false

/-- Minimum token count of the wildcard node at `i`, if it is one. -/
def Tree.wcMin (t : Tree) (i : Nat) : Option Nat :=
  match (t.node i).kind with
  | NodeKind.wildcard _ m => some m
  | _ => none

/-- Whether the node at `i` is a wildcard node with `min = 0`. -/
def Tree.isWildcardMin0 (t : Tree) (i : Nat) : Bool :=
  t.wcMin i == some 0

/-- Set the minimum token count of the wildcard node at `i`. -/
def Tree.setWcMin (t : Tree) (i : Nat) (m : Nat) : Tree :=
  match (t.node i).kind with
  | NodeKind.wildcard o _ => t.setNode i { t.node i with kind := NodeKind.wildcard o m }
  | _ => t

/-- Whether the node at index `c` is a word node carrying exactly `w`. -/
def Tree.isWordChildFor (t : Tree) (c : Nat) (w : Word) : Bool :=
  match (t.node c).kind with
  | NodeKind.word w' => w' == w
  | _ => false

/-- Width in bits of the input-index part of a packed omap key
(`MAX_INPUT_IDX_SIZE` in `tree.cpp`). -/
def MAX_INPUT_IDX_SIZE : Nat := 10

/-- Mask selecting the input-index bits (`INPUT_IDX_MASK` in `tree.cpp`). -/
def INPUT_IDX_MASK : Nat := (1 <<< MAX_INPUT_IDX_SIZE) - 1

/-- Packs a rule id and an input index into one 64-bit omap key, as
`getOmapId` in `tree.cpp` does; the arithmetic of `quint64` is embedded as
natural-number arithmetic modulo `2 ^ 64`. -/
def getOmapId (ruleId : Nat) (inputIdx : Nat) : Nat :=
  ((inputIdx &&& INPUT_IDX_MASK) + ((ruleId <<< MAX_INPUT_IDX_SIZE) % 2 ^ 64)) % 2 ^ 64

/-- Extracts the rule id from a packed omap key (`getRuleId` in `tree.cpp`). -/
def getRuleId (id : Nat) : Nat := id >>> MAX_INPUT_IDX_SIZE

/-- Extracts the input index from a packed omap key (`getInputIndex` in
`tree.cpp`). -/
def getInputIndex (id : Nat) : Nat := id &&& INPUT_IDX_MASK

/-- Insert a key-value pair into an omap, keeping it sorted by key with unique
keys (the behaviour of `QMap::operator[]` assignment). -/
def omapInsert (k : Nat) (v : CondOutputList) : List (Nat × CondOutputList) →
    List (Nat × CondOutputList)
  | [] => [(k, v)]
  | (k', v') :: rest =>
    if k < k' then (k, v) :: (k', v') :: rest
    else if k = k' then (k, v) :: rest
    else (k', v') :: omapInsert k v rest

/-- One rule: an id, an ordered list of input pattern strings, and the
conditional output list shared by all inputs. -/
structure Rule where
  id : Nat
  input : List String
  output : CondOutputList

/-- Payload of a node freshly created for `word`: a wildcard with `min = 0`
for `*` and `min = 1` for `+`, a variable named by the bracket-stripped
original text, or a word node. -/
def createdKind (word : Word) : NodeKind :=
  if word.isWildcard then
    NodeKind.wildcard word.origWord (if word.origWord == STAR_OP then 0 else 1)
  else if word.isVariable then
    NodeKind.var (String.mk ((word.origWord.toList.drop 1).dropLast))
  else NodeKind.word word

/-- Child list of a freshly created node: wildcard and variable nodes carry a
self-loop edge. -/
def createdChilds (word : Word) (newId : Nat) : List Nat :=
  if word.isWildcard || word.isVariable then [newId] else []

/-- The node-creation step of `Tree::addNode`: append the new node, register
it in the parent's child list, and when the parent is a wildcard with
`min = 0` also splice it into the grandparent's child list. -/
def Tree.createNode (t : Tree) (word : Word) (parent : Nat) : Tree × Nat :=
  let pnode := t.node parent
  let newId := t.size
  let t1 : Tree := ⟨t.nodes ++ [⟨createdKind word, parent, createdChilds word newId, []⟩]⟩
  let t2 := t1.setNode parent { pnode with childs := pnode.childs ++ [newId] }
  let t3 :=
    if t.isWildcardMin0 parent then
      let gp := pnode.parent
      t2.setNode gp { t2.node gp with childs := (t2.node gp).childs ++ [newId] }
    else t2
  (t3, newId)

/-- Embeds `Tree::addNode` from `tree.cpp`: reuse an existing word child for
an equal word token; reuse an existing wildcard child for a wildcard token,
lowering its `min` to 0 when the incoming token is `*` and the existing node
has `min = 1`; otherwise create a new node through `createNode`.  Returns the
updated tree and the index of the resulting node. -/
def Tree.addNode (t : Tree) (word : Word) (parent : Nat) : Tree × Nat :=
  let pnode := t.node parent
  match (if word.isWord then pnode.childs.find? (fun c => t.isWordChildFor c word) else none) with
  | some c => (t, c)
  | none =>
    match (if word.isWildcard then pnode.childs.find? (fun c => t.isWildcardAt c) else none) with
    | some c =>
      let t' := if word.origWord == STAR_OP && t.wcMin c == some 1 then t.setWcMin c 0 else t
      (t', c)
    | none => t.createNode word parent

/-- Embeds `Tree::filterSymbols` from `tree.cpp`: remove all symbol tokens. -/
def filterSymbols (words : List Word) : List Word :=
  words.filter (fun w => !w.isSymbol)

/-- Apostrophe character. -/
def apoChar : Char := Char.ofNat 39

/-- Embeds `Tree::parseExactMatch` from `tree.cpp`: a token whose original
text is enclosed in single quotes and has length at least 3 is rewritten to
the lower-cased inner text, with normalised text set to the same string and
lemma and part-of-speech tag cleared. -/
def parseExactMatch (words : List Word) : List Word :=
  words.map (fun w =>
    let cs := w.origWord.toList
    if decide (3 ≤ cs.length) && (cs.head? == some apoChar) && (cs.getLast? == some apoChar)
    then
      let inner := String.mk (((cs.drop 1).dropLast).map Char.toLower)
      { origWord := inner, normWord := inner, lemm := "", posTag := "" }
    else w)

/-- Embeds `Tree::parseRuleInput` from `tree.cpp`: lemmatise the raw input
through the external lemmatiser `lem`, apply the exact-match quoting rule,
then drop symbol tokens. -/
def parseRuleInput (lem : String → List Word) (input : String) : List Word :=
  filterSymbols (parseExactMatch (lem input))

/-- Remove every apostrophe from a string, as `getResponses` does to the raw
user input before lemmatising. -/
def removeApostrophes (s : String) : String :=
  String.mk (s.toList.filter (fun c => c ≠ apoChar))

/-- Embeds `Tree::parseUserInput` from `tree.cpp`: strip apostrophes,
lemmatise through the external lemmatiser `lem`, then drop symbol tokens. -/
def parseUserInput (lem : String → List Word) (input : String) : List Word :=
  filterSymbols (lem (removeApostrophes input))

/-- Embeds `Tree::addNodeOutput` from `tree.cpp`: install the rule's
conditional output list under the packed key of each recorded output node. -/
def Tree.addNodeOutput (t : Tree) (rule : Rule) (onodes : List (Nat × Nat)) : Tree :=
  onodes.foldl
    (fun t p =>
      t.setNode p.2 { t.node p.2 with
        omap := omapInsert (getOmapId rule.id p.1) rule.output (t.node p.2).omap })
    t

/-- The per-input step of `Tree::add`: parse the input, skip it when empty,
otherwise insert its tokens from the root and record the output nodes
(terminal node, plus its parent for a trailing `*` whose node is not a child
of the root). -/
def Tree.addStep (lem : String → List Word) (acc : Tree × List (Nat × Nat))
    (iw : Nat × String) : Tree × List (Nat × Nat) :=
  let words := parseRuleInput lem iw.2
  if words.isEmpty then acc
  else
    let fin := words.foldl (fun (st : Tree × Nat) w => st.1.addNode w st.2) (acc.1, 0)
    let onodes1 := acc.2 ++ [(iw.1, fin.2)]
    let onodes2 :=
      if (words.getLastD default).normWord == STAR_OP && (fin.1.node fin.2).parent ≠ 0 then
        onodes1 ++ [(iw.1, (fin.1.node fin.2).parent)]
      else onodes1
    (fin.1, onodes2)

/-- Embeds `Tree::add` from `tree.cpp`: run the per-input step over the
enumerated inputs, then install the rule output at every recorded output
node. -/
def Tree.add (lem : String → List Word) (t : Tree) (rule : Rule) : Tree :=
  let built := rule.input.enum.foldl (Tree.addStep lem) (t, [])
  built.1.addNodeOutput rule built.2

/-- Build a tree from a list of rules starting from the empty tree. -/
def buildTree (lem : String → List Word) (rules : List Rule) : Tree :=
  rules.foldl (Tree.add lem) emptyTree

/-- Modelled from the spec: one frame of the variable stack, keyed by variable
name and input offset, holding the tokens captured at that offset
(`varstack.h` is not among the sources). -/
structure VarFrame where
  name : String
  offset : Nat
  capture : List String
deriving Repr, DecidableEq

/-- Modelled from the spec: the variable stack is a push-down structure of
frames; the frame offsets are strictly decreasing from the top. -/
abbrev VarStack := List VarFrame

/-- Modelled from the spec: `update(name, offset)` records that position
`offset` is currently owned by `name`; frames at this offset or deeper are
popped, which implicitly resets the stack when the search re-enters the root
at offset 0. -/
def VarStack.update (st : VarStack) (name : String) (offset : Nat) : VarStack :=
  ⟨name, offset, []⟩ :: st.dropWhile (fun f => offset ≤ f.offset)

/-- Modelled from the spec: `capture(origWord, offset)` appends the word to
the capture of the current frame at `offset`. -/
def VarStack.capture (st : VarStack) (w : String) (offset : Nat) : VarStack :=
  match st with
  | [] => []
  | f :: rest => if f.offset == offset then { f with capture := f.capture ++ [w] } :: rest
                 else f :: rest

/-- Modelled from the spec: `value(name)` is the concatenation, in input
order, of the captures recorded for `name`. -/
def VarStack.value (st : VarStack) (name : String) : String :=
  String.intercalate " " (((st.filter (fun f => f.name == name)).reverse).flatMap VarFrame.capture)

/-- Modelled from the spec: the cumulative scoring state folds one weight per
input offset; scoring at an offset drops the state at this offset and deeper,
which implicitly resets the scorer when the search re-enters the root
(`scoringalgorithm.h` is not among the sources). -/
abbrev ScoreState := List (Nat × Int)

/-- Modelled from the spec: fold the weight observed at `offset` into the
scoring state. -/
def ScoreState.updateScore (st : ScoreState) (offset : Nat) (w : Int) : ScoreState :=
  (offset, w) :: st.dropWhile (fun e => offset ≤ e.1)

/-- Modelled from the spec: the current cumulative score of the scoring
state. -/
def ScoreState.currentScore (st : ScoreState) : Int :=
  (st.map Prod.snd).sum

/-- Evaluate a condition against the variable stack.  Modelled from the spec:
conditions may reference captured variables. -/
def Cond.eval (st : VarStack) : Cond → Bool
  | Cond.ctrue => true
  | Cond.varEq n v => st.value n == v

/-- Modelled from the spec: `nextValidOutput` returns the template of the
first pair whose condition is satisfied against the stack, if any. -/
def nextValidOutput (st : VarStack) (l : CondOutputList) : Option Template :=
  (l.find? (fun co => co.cond.eval st)).map CondOutput.tmpl

/-- The mutable per-tree state of `tree.cpp` (`m_stack`, `m_scoringAlg`,
`m_loopDetector`), threaded explicitly. -/
structure EngineState where
  stack : VarStack
  scorer : ScoreState
  detector : List (Nat × Nat)
deriving Repr, DecidableEq

/-- The per-query static environment: the tree, the pluggable match policy
(weight of a node against a token) and the external lemmatiser. -/
structure Env where
  tree : Tree
  policy : Node → Word → Int
  lemmatize : String → List Word

/-- One result of a query (`Nlp::Result`): the expanded output, the decoded
rule id and input index, and the score. -/
structure Result where
  output : String
  ruleId : Nat
  inputIdx : Nat
  score : Int
deriving Repr, DecidableEq

/-- Result lists accumulated by the search. -/
abbrev ResultList := List Result

/-- Embeds the core of `Tree::expandVars` from `tree.cpp`, on the parsed
template: literal runs are copied; a plain variable reference is replaced by
the current stack value; a recursive reference re-dispatches the stack value
through `rec_` (the recursive responder) and fails immediately when the
response is empty.  Returns the raw accumulated string, the success flag and
the threaded state. -/
def expandVarsGo (rec_ : String → EngineState → String × EngineState) (s : EngineState) :
    Template → String × Bool × EngineState
  | [] => ("", true, s)
  | TmplPart.lit str :: rest =>
    let r := expandVarsGo rec_ s rest
    (str ++ r.1, r.2.1, r.2.2)
  | TmplPart.pvar n :: rest =>
    let v := s.stack.value n
    let r := expandVarsGo rec_ s rest
    (v ++ r.1, r.2.1, r.2.2)
  | TmplPart.rvar n :: rest =>
    let v := s.stack.value n
    let q := rec_ v s
    if q.1 == "" then ("", false, q.2)
    else
      let r := expandVarsGo rec_ q.2 rest
      (q.1 ++ r.1, r.2.1, r.2.2)

/-- Embeds `Tree::expandVars`: on failure the accumulated output is cleared,
so the expansion yields the empty string with `ok = false`. -/
def expandVars (rec_ : String → EngineState → String × EngineState) (s : EngineState)
    (tmpl : Template) : String × Bool × EngineState :=
  let r := expandVarsGo rec_ s tmpl
  (if r.2.1 then r.1 else "", r.2.1, r.2.2)

/-- Embeds the omap iteration of `Tree::getValidOutput` from `tree.cpp`:
walk the entries in key order; for each, take the first valid output template
and expand it; on expansion failure advance to the next entry; on success
return the expanded output together with the rule id and input index decoded
from the key. -/
def goOmap (rec_ : String → EngineState → String × EngineState) (s : EngineState) :
    List (Nat × CondOutputList) → Option (String × Nat × Nat) × EngineState
  | [] => (none, s)
  | (key, l) :: rest =>
    match nextValidOutput s.stack l with
    | none => goOmap rec_ s rest
    | some tmpl =>
      let e := expandVars rec_ s tmpl
      if e.2.1 then (some (e.1, getRuleId key, getInputIndex key), e.2.2)
      else goOmap rec_ e.2.2 rest

/-- Embeds `Tree::getValidOutput` on the node at index `nodeId`. -/
def getValidOutputP (rec_ : String → EngineState → String × EngineState) (env : Env)
    (s : EngineState) (nodeId : Nat) : Option (String × Nat × Nat) × EngineState :=
  goOmap rec_ s (env.tree.node nodeId).omap

/-- Embeds `Tree::handleEndWord` from `tree.cpp`: if the pair
`(node, offset)` is already in the loop detector the branch is aborted;
otherwise the pair is inserted, a valid output is sought, a non-null result is
stamped with the current score and appended, and the pair is removed again. -/
def handleEndWordP (rec_ : String → EngineState → String × EngineState) (env : Env)
    (s : EngineState) (results : ResultList) (nodeId offset : Nat) :
    ResultList × EngineState :=
  let p := (nodeId, offset)
  if p ∈ s.detector then (results, s)
  else
    let s1 : EngineState := { s with detector := p :: s.detector }
    let g := getValidOutputP rec_ env s1 nodeId
    let s3 : EngineState := { g.2 with detector := g.2.detector.erase p }
    match g.1 with
    | some pr =>
      (results ++ [⟨pr.1, pr.2.1, pr.2.2, g.2.scorer.currentScore⟩], s3)
    | none => (results, s3)

/-- Embeds `Tree::scoredDFS` from `tree.cpp`, iterating over the child list
`cs` of the current node at input position `offset`: each child is weighted by
the match policy, the variable stack is updated (with the variable name for a
variable node, anonymously otherwise), and on a positive weight the token is
captured, the score updated, and the search recurses into the child (or calls
`handleEndWord` at the last token).  The descent into a child and the
end-of-input handling are passed in as `deeper` and `endw`. -/
def dfsOverChilds (env : Env) (words : List Word) (offset : Nat)
    (deeper : List Nat → ResultList → EngineState → ResultList × EngineState)
    (endw : Nat → ResultList → EngineState → ResultList × EngineState) :
    List Nat → ResultList → EngineState → ResultList × EngineState
  | [], results, s => (results, s)
  | c :: rest, results, s =>
    if h : offset < words.length then
      let node := env.tree.node c
      let w := words[offset]
      let weight := env.policy node w
      let s1 : EngineState := { s with stack :=
        match node.kind with
        | NodeKind.var vn => s.stack.update vn offset
        | _ => s.stack.update "" offset }
      if 0 < weight then
        let s2 : EngineState := { s1 with
          stack := s1.stack.capture w.origWord offset,
          scorer := s1.scorer.updateScore offset weight }
        let step :=
          if offset + 1 < words.length then deeper node.childs results s2
          else endw c results s2
        dfsOverChilds env words offset deeper endw rest step.1 step.2
      else
        dfsOverChilds env words offset deeper endw rest results s1
    else (results, s)

/-- The recursive driver of `Tree::scoredDFS`: `gas` bounds the number of
remaining recursion levels; it is always called with
`gas ≥ words.length - offset`, so the `gas = 0` case coincides with the
immediate return of the source on `offset ≥ words.size()`. -/
def scoredDFSGo (rec_ : String → EngineState → String × EngineState) (env : Env)
    (words : List Word) : Nat → Nat → List Nat → ResultList → EngineState →
    ResultList × EngineState
  | 0, _, _, results, s => (results, s)
  | gas + 1, offset, cs, results, s =>
    dfsOverChilds env words offset
      (scoredDFSGo rec_ env words gas (offset + 1))
      (fun c results s => handleEndWordP rec_ env s results c offset)
      cs results s

/-- Insertion step of the sort model: place a result before the first
earlier result whose score is not higher.  The source sorts with the external
Qt routine `qSort` and the comparator `highScoreFirst` (`tree.cpp:240`),
which guarantees the score order but fixes no particular order among results
of equal score, so the order this model gives equal-score results is a
modelling choice, not a guarantee of the program. -/
def insertHS (x : Result) : ResultList → ResultList
  | [] => [x]
  | y :: ys => if x.score < y.score then y :: insertHS x ys else x :: y :: ys

/-- Sort of the candidate results by score, descending: one concrete
deterministic model of the external `qSort` call of `getResponses`. -/
def sortHS : ResultList → ResultList
  | [] => []
  | x :: xs => insertHS x (sortHS xs)

/-- The candidate results of one query: the scored depth-first search started
at the root's children, offset 0, with an empty accumulator. -/
def queryResults (rec_ : String → EngineState → String × EngineState) (env : Env)
    (words : List Word) (s : EngineState) : ResultList × EngineState :=
  scoredDFSGo rec_ env words words.length 0 (env.tree.node 0).childs [] s

/-- Embeds `Tree::getResponses` from `tree.cpp`, parameterised by the
recursive responder `rec_`: tokenise the user input, run the scored search,
sort the results by score descending, and return the ordered response strings
together with the parallel `(ruleId, inputIdx)` match trail. -/
def runQuery (rec_ : String → EngineState → String × EngineState) (env : Env)
    (input : String) (s : EngineState) :
    (List String × List (Nat × Nat)) × EngineState :=
  let words := parseUserInput env.lemmatize input
  let q := queryResults rec_ env words s
  let sorted := sortHS q.1
  ((sorted.map Result.output, sorted.map (fun r => (r.ruleId, r.inputIdx))), q.2)

/-- Embeds `Tree::getResponse` (singular) on the outcome of `getResponses`:
the first response when both lists are non-empty, the empty string
otherwise. -/
def firstResponse : List String × List (Nat × Nat) → String
  | (r :: _, _ :: _) => r
  | _ => ""

/-- Embeds `Tree::getRecResponse` from `tree.cpp` around an arbitrary query
function: save the current variable stack and scorer, install fresh ones, run
the query, keep only the first response string (the inner match trail is
discarded), and restore the saved stack and scorer. -/
def getRecResponseBody (query : String → EngineState → (List String × List (Nat × Nat)) × EngineState)
    (input : String) (s : EngineState) : String × EngineState :=
  let stackBak := s.stack
  let scoringBak := s.scorer
  let s1 : EngineState := { s with stack := [], scorer := [] }
  let q := query input s1
  (firstResponse q.1, { q.2 with stack := stackBak, scorer := scoringBak })

/-- The query pipeline at a given expansion-recursion depth.  Modelled from
the spec at the recursion cap: implementations cap expansion recursion
(default 64) and treat overrun as expansion failure, so at depth 0 a recursive
reference yields the empty response (which the expander treats as failure);
at depth `d + 1` a recursive reference re-enters the engine at depth `d`
through `getRecResponse`. -/
def getResponsesD (env : Env) : Nat → String → EngineState →
    (List String × List (Nat × Nat)) × EngineState
  | 0 => runQuery (fun _ s => ("", s)) env
  | d + 1 => runQuery (fun inp s => getRecResponseBody (getResponsesD env d) inp s) env

/-- The recursive responder used by the engine at a given depth. -/
def recDispatch (env : Env) : Nat → String → EngineState → String × EngineState
  | 0 => fun _ s => ("", s)
  | d + 1 => fun inp s => getRecResponseBody (getResponsesD env d) inp s

/-- Modelled from the spec: the default expansion recursion cap. -/
def EXPANSION_CAP : Nat := 64

/-- Embeds `Tree::getResponses`, the engine entry point, at the default
expansion recursion cap. -/
def getResponses (env : Env) (input : String) (s : EngineState) :
    (List String × List (Nat × Nat)) × EngineState :=
  getResponsesD env EXPANSION_CAP input s

/-- Split a character list into maximal runs of non-space characters. -/
def splitRuns : List Char → List Char → List String
  | [], acc => if acc.isEmpty then [] else [String.mk acc.reverse]
  | c :: cs, acc =>
    if c = ' ' then
      if acc.isEmpty then splitRuns cs [] else String.mk acc.reverse :: splitRuns cs []
    else splitRuns cs (c :: acc)

/-- A concrete lemmatiser for witnesses: split on spaces, keep non-empty
tokens, normalised text equal to the original. -/
def sampleLem : String → List Word :=
  fun s => (splitRuns s.toList []).map (fun t => ⟨t, t, "", ""⟩)

/-- A concrete match policy for witnesses: weight 1 for a word node with an
equal normalised text, weight 1/2 for wildcard and variable nodes. -/
def samplePolicy : Node → Word → Int := fun n w =>
  match n.kind with
  | NodeKind.word w' => if w'.normWord == w.normWord then 2 else 0
  | NodeKind.wildcard _ _ => 1
  | NodeKind.var _ => 1
  | NodeKind.root => 0

/-- A rule using the one-or-more wildcard, for the star-subsumes-plus
scenario. -/
def rulePlus : Rule := ⟨1, ["a + b"], [⟨Cond.ctrue, [TmplPart.lit "p"]⟩]⟩

/-- A rule using the zero-or-more wildcard at the same position. -/
def ruleStar : Rule := ⟨2, ["a *"], [⟨Cond.ctrue, [TmplPart.lit "s"]⟩]⟩

/-- The tree of the star-subsumes-plus scenario: `a + b` inserted before
`a *`. -/
def treePS : Tree := buildTree sampleLem [rulePlus, ruleStar]

/-- Wildcard children of the node at `p`. -/
def Tree.wildcardChilds (t : Tree) (p : Nat) : List Nat :=
  (t.node p).childs.filter (fun c => t.isWildcardAt c)

/-- A concrete environment for witnesses. -/
def sampleEnv : Env := ⟨treePS, samplePolicy, sampleLem⟩

/-- The empty engine state. -/
def emptyState : EngineState := ⟨[], [], []⟩

/-- The star wildcard token. -/
def starWord : Word := ⟨"*", "*", "", ""⟩

/-- The tree obtained by inserting only the `+` rule. -/
def treeP : Tree := buildTree sampleLem [rulePlus]

/-- A rule with a star between two literals, for the zero-hop witness. -/
def ruleStarB : Rule := ⟨3, ["a * b"], [⟨Cond.ctrue, [TmplPart.lit "z"]⟩]⟩

/-- Whether no token of a parsed word list is the `+` wildcard. -/
def noPlusWords (ws : List Word) : Bool :=
  ws.all (fun w => w.origWord != PLUS_OP)

/-- Whether no input of a rule contains the `+` wildcard after parsing. -/
def noPlusRule (lem : String → List Word) (r : Rule) : Bool :=
  r.input.all (fun inp => noPlusWords (parseRuleInput lem inp))

/-- The invariants of trees built from `+`-free rules: the arena is
non-empty with the root at index 0, parents and children are in range,
parents strictly precede their nodes, and every wildcard node has `min = 0`,
loops on itself, hangs below a non-wildcard parent, and has all its children
spliced into that parent's child list (the zero-hop shortcut). -/
def WFnp (t : Tree) : Prop :=
  0 < t.size ∧
  (t.node 0).kind = NodeKind.root ∧
  (∀ i, i < t.size → (t.node i).parent < t.size ∧ ∀ c ∈ (t.node i).childs, c < t.size) ∧
  (∀ i, 0 < i → i < t.size → (t.node i).parent < i) ∧
  (∀ i, i < t.size → t.isWildcardAt i = true →
    t.wcMin i = some 0 ∧ i ∈ (t.node i).childs ∧
    t.isWildcardAt ((t.node i).parent) = false ∧
    (∀ c, c ∈ (t.node i).childs → c ∈ (t.node ((t.node i).parent)).childs))

/-- Whether one omap entry fails to produce an output against state `s`:
either no condition of its output list is satisfied, or the selected template
fails to expand. -/
def omapEntryFails (rec_ : String → EngineState → String × EngineState) (s : EngineState)
    (e : Nat × CondOutputList) : Bool :=
  match nextValidOutput s.stack e.2 with
  | none => true
  | some tmpl => (expandVars rec_ s tmpl).2.1 == false

/-- Unfolding lemma: the pipeline at depth `d` is `runQuery` with the
responder at depth `d`. -/
theorem getResponsesD_eq (env : Env) (d : Nat) :
    getResponsesD env d = runQuery (recDispatch env d) env := by
  cases d <;> rfl

/-! ## Claim C5: omap key packing -/

/-- The mask is the low ten bits. -/
theorem INPUT_IDX_MASK_eq : INPUT_IDX_MASK = 2 ^ 10 - 1 := by decide

/-- Counterexample to claim C5 as stated: the packed key drops the top ten
bits of the rule id, so a rule id of `2 ^ 54` does not survive the
round trip (with input index 0 the packed key wraps to 0). -/
theorem C5_key_roundtrip_counterexample :
    getRuleId (getOmapId (2 ^ 54) 0) ≠ 2 ^ 54 := by decide

/-- Claim C5, amended: for every rule id below `2 ^ 54` (the 54 bits that
remain above the ten input-index bits of the 64-bit key) and every input
index below 1024, the packed omap key decomposes back into its parts. -/
theorem C5_key_roundtrip (r i : Nat) (hr : r < 2 ^ 54) (hi : i < 1024) :
    getRuleId (getOmapId r i) = r ∧ getInputIndex (getOmapId r i) = i := by
  have hmask : ∀ n : Nat, n &&& INPUT_IDX_MASK = n % 2 ^ 10 := by
    intro n
    rw [INPUT_IDX_MASK_eq]
    exact Nat.and_pow_two_sub_one_eq_mod n 10
  have hshift : r <<< MAX_INPUT_IDX_SIZE = r * 2 ^ 10 := Nat.shiftLeft_eq r 10
  have hkey : getOmapId r i = i + r * 2 ^ 10 := by
    unfold getOmapId
    rw [hmask, hshift]
    have h1 : r * 2 ^ 10 < 2 ^ 64 := by omega
    have h2 : i % 2 ^ 10 = i := Nat.mod_eq_of_lt (by omega)
    rw [h2, Nat.mod_eq_of_lt h1, Nat.mod_eq_of_lt (by omega)]
  constructor
  · unfold getRuleId
    rw [hkey, Nat.shiftRight_eq_div_pow]
    simp only [MAX_INPUT_IDX_SIZE]
    omega
  · unfold getInputIndex
    rw [hkey, hmask]
    omega

/-- Witness for claim C5 at a concrete input. -/
theorem C5_key_roundtrip_witness :
    getRuleId (getOmapId 3 5) = 3 ∧ getInputIndex (getOmapId 3 5) = 5 :=
  C5_key_roundtrip 3 5 (by norm_num) (by norm_num)

/-! ## Claim C10: empty tokenisation gives an empty answer -/

/-- The per-offset child loop returns immediately when the offset is at or
past the end of the token list. -/
theorem dfsOverChilds_offset_ge (env : Env) (words : List Word) (offset : Nat)
    (deeper : List Nat → ResultList → EngineState → ResultList × EngineState)
    (endw : Nat → ResultList → EngineState → ResultList × EngineState)
    (cs : List Nat) (results : ResultList) (s : EngineState)
    (h : words.length ≤ offset) :
    dfsOverChilds env words offset deeper endw cs results s = (results, s) := by
  cases cs with
  | nil => rfl
  | cons c rest => rw [dfsOverChilds]; simp [Nat.not_lt.mpr h]

/-- The scored search returns immediately when the offset is at or past the
end of the token list. -/
theorem scoredDFSGo_offset_ge (rec_ : String → EngineState → String × EngineState)
    (env : Env) (words : List Word) (gas offset : Nat) (cs : List Nat)
    (results : ResultList) (s : EngineState) (h : words.length ≤ offset) :
    scoredDFSGo rec_ env words gas offset cs results s = (results, s) := by
  cases gas with
  | zero => rfl
  | succ g => rw [scoredDFSGo]; exact dfsOverChilds_offset_ge _ _ _ _ _ _ _ _ h

/-- Claim C10: when the user input tokenises to an empty word list,
`getResponses` returns an empty response list and an empty match list, and the
underlying search returns immediately whenever the offset is at or past the
end of the word list. -/
theorem C10_empty_tokenisation (env : Env) (input : String) (s : EngineState)
    (h : parseUserInput env.lemmatize input = []) :
    getResponses env input s = (([], []), s) ∧
    (∀ rec_ words gas offset cs results s', List.length words ≤ offset →
      scoredDFSGo rec_ env words gas offset cs results s' = (results, s')) := by
  constructor
  · unfold getResponses
    rw [getResponsesD_eq]
    unfold runQuery queryResults
    rw [h]
    simp [scoredDFSGo, sortHS]
  · intro rec_ words gas offset cs results s' h'
    exact scoredDFSGo_offset_ge rec_ env words gas offset cs results s' h'

/-- Witness for claim C10: the empty input tokenises to no words and yields
the empty answer. -/
theorem C10_empty_tokenisation_witness :
    getResponses sampleEnv "" emptyState = (([], []), emptyState) :=
  (C10_empty_tokenisation sampleEnv "" emptyState (by decide)).1

/-! ## Preservation of the loop detector

The loop detector is grown and shrunk only inside `handleEndWord`; every
layer of the engine leaves it exactly as it found it.  These lemmas are the
backbone of the determinism and frame claims. -/

/-- Template expansion preserves the loop detector, provided the recursive
responder does. -/
theorem expandVarsGo_detector (rec_ : String → EngineState → String × EngineState)
    (hrec : ∀ inp s, ((rec_ inp s).2).detector = s.detector) (parts : Template) :
    ∀ s : EngineState, ((expandVarsGo rec_ s parts).2.2).detector = s.detector := by
  induction parts with
  | nil => intro s; rfl
  | cons p rest ih =>
    intro s
    cases p with
    | lit str => simpa only [expandVarsGo] using ih s
    | pvar n => simpa only [expandVarsGo] using ih s
    | rvar n =>
      simp only [expandVarsGo]
      split
      · exact hrec _ _
      · rw [ih]; exact hrec _ _

/-- The expansion wrapper preserves the loop detector. -/
theorem expandVars_detector (rec_ : String → EngineState → String × EngineState)
    (hrec : ∀ inp s, ((rec_ inp s).2).detector = s.detector) (s : EngineState)
    (tmpl : Template) : ((expandVars rec_ s tmpl).2.2).detector = s.detector :=
  expandVarsGo_detector rec_ hrec tmpl s

/-- The omap walk preserves the loop detector. -/
theorem goOmap_detector (rec_ : String → EngineState → String × EngineState)
    (hrec : ∀ inp s, ((rec_ inp s).2).detector = s.detector)
    (entries : List (Nat × CondOutputList)) :
    ∀ s : EngineState, ((goOmap rec_ s entries).2).detector = s.detector := by
  induction entries with
  | nil => intro s; rfl
  | cons e rest ih =>
    intro s
    simp only [goOmap]
    cases hn : nextValidOutput s.stack e.2 with
    | none => exact ih s
    | some tmpl =>
      simp only
      split
      · exact expandVars_detector rec_ hrec s tmpl
      · rw [ih]; exact expandVars_detector rec_ hrec s tmpl

/-- The terminal handler restores the loop detector before returning. -/
theorem handleEndWordP_detector (rec_ : String → EngineState → String × EngineState)
    (hrec : ∀ inp s, ((rec_ inp s).2).detector = s.detector) (env : Env)
    (s : EngineState) (results : ResultList) (nodeId offset : Nat) :
    ((handleEndWordP rec_ env s results nodeId offset).2).detector = s.detector := by
  unfold handleEndWordP
  simp only []
  split
  · rfl
  · simp only [getValidOutputP]
    have hg := goOmap_detector rec_ hrec (env.tree.node nodeId).omap
      { s with detector := (nodeId, offset) :: s.detector }
    split <;> simp only [] <;> rw [hg] <;> exact List.erase_cons_head _ _

/-- The per-offset child loop preserves the loop detector, provided descent
and terminal handling do. -/
theorem dfsOverChilds_detector (env : Env) (words : List Word) (offset : Nat)
    (deeper : List Nat → ResultList → EngineState → ResultList × EngineState)
    (endw : Nat → ResultList → EngineState → ResultList × EngineState)
    (hdeep : ∀ cs results s, ((deeper cs results s).2).detector = s.detector)
    (hend : ∀ c results s, ((endw c results s).2).detector = s.detector)
    (cs : List Nat) : ∀ (results : ResultList) (s : EngineState),
    ((dfsOverChilds env words offset deeper endw cs results s).2).detector = s.detector := by
  induction cs with
  | nil => intro results s; rfl
  | cons c rest ih =>
    intro results s
    rw [dfsOverChilds]
    split
    · simp only
      split
      · rw [ih]
        split
        · rw [hdeep]
        · rw [hend]
      · rw [ih]
    · rfl

/-- The scored search preserves the loop detector, provided the recursive
responder does. -/
theorem scoredDFSGo_detector (rec_ : String → EngineState → String × EngineState)
    (hrec : ∀ inp s, ((rec_ inp s).2).detector = s.detector) (env : Env)
    (words : List Word) (gas : Nat) : ∀ (offset : Nat) (cs : List Nat)
    (results : ResultList) (s : EngineState),
    ((scoredDFSGo rec_ env words gas offset cs results s).2).detector = s.detector := by
  induction gas with
  | zero => intro offset cs results s; rfl
  | succ g ih =>
    intro offset cs results s
    rw [scoredDFSGo]
    exact dfsOverChilds_detector env words offset _ _
      (fun cs results s => ih (offset + 1) cs results s)
      (fun c results s => handleEndWordP_detector rec_ hrec env s results c offset)
      cs results s

/-- The whole query pipeline preserves the loop detector. -/
theorem getResponsesD_detector (env : Env) (d : Nat) :
    ∀ (input : String) (s : EngineState),
    ((getResponsesD env d input s).2).detector = s.detector := by
  induction d with
  | zero =>
    intro input s
    unfold getResponsesD runQuery queryResults
    exact scoredDFSGo_detector _ (fun _ _ => rfl) env _ _ _ _ _ _
  | succ d ih =>
    intro input s
    unfold getResponsesD runQuery queryResults
    refine scoredDFSGo_detector _ ?_ env _ _ _ _ _ _
    intro inp s'
    unfold getRecResponseBody
    simp only
    exact ih inp _

/-- The recursive responder preserves the loop detector. -/
theorem recDispatch_detector (env : Env) (d : Nat) (inp : String) (s : EngineState) :
    ((recDispatch env d inp s).2).detector = s.detector := by
  cases d with
  | zero => rfl
  | succ d =>
    unfold recDispatch getRecResponseBody
    simp only
    exact getResponsesD_detector env d inp _

/-- The recursive responder restores the full engine state: the stack and
scorer are restored explicitly and the loop detector is preserved by the
inner query. -/
theorem recDispatch_state_id (env : Env) (d : Nat) (inp : String) (s : EngineState) :
    (recDispatch env d inp s).2 = s := by
  cases d with
  | zero => rfl
  | succ d =>
    unfold recDispatch getRecResponseBody
    simp only
    have hdet := getResponsesD_detector env d inp
      { s with stack := [], scorer := [] }
    cases s
    simp_all

/-! ## Claim C8: the recursive context switch is a frame -/

/-- Claim C8: a call to `getRecResponse` restores the caller's entire engine
state — the variable stack and scorer are saved and restored explicitly and
the loop detector is preserved by the inner query — and of the inner query
only the first response string is kept (the inner scores and match trail are
discarded). -/
theorem C8_rec_context_restored (env : Env) (d : Nat) (inp : String) (s : EngineState) :
    (recDispatch env (d + 1) inp s).2 = s ∧
    (recDispatch env (d + 1) inp s).1 =
      firstResponse (getResponsesD env d inp { s with stack := [], scorer := [] }).1 :=
  ⟨recDispatch_state_id env (d + 1) inp s, rfl⟩

/-! ## Claim C2: determinism of successive identical queries -/

/-- Dropping while a universally satisfied predicate holds empties a list. -/
theorem dropWhile_of_all {α : Type} (p : α → Bool) (l : List α) (h : ∀ x, p x = true) :
    l.dropWhile p = [] := by
  induction l with
  | nil => rfl
  | cons a l ih => simp [List.dropWhile_cons, h a, ih]

/-- Updating the variable stack at offset 0 resets it to a single fresh
frame, whatever the previous contents: this is the implicit reset of the
stack at the top of each query. -/
theorem update_zero (st : VarStack) (name : String) :
    st.update name 0 = [⟨name, 0, []⟩] := by
  unfold VarStack.update
  rw [dropWhile_of_all _ st (fun x => by simp)]

/-- Scoring at offset 0 resets the scorer to the single fresh entry: this is
the implicit reset of the scorer at the top of each query. -/
theorem updateScore_zero (st : ScoreState) (w : Int) :
    st.updateScore 0 w = [(0, w)] := by
  unfold ScoreState.updateScore
  rw [dropWhile_of_all _ st (fun x => by simp)]

/-- The stack produced by the anonymous-or-variable update at offset 0 does
not depend on the previous stack. -/
theorem updateAtZero_congr (st₁ st₂ : VarStack) (k : NodeKind) :
    (match k with
     | NodeKind.var vn => st₁.update vn 0
     | _ => st₁.update "" 0) =
    (match k with
     | NodeKind.var vn => st₂.update vn 0
     | _ => st₂.update "" 0) := by
  cases k <;> simp [update_zero]

/-- At offset 0 the child loop computes the same results from any two states
that agree on the loop detector: the first stack update and score update wipe
whatever stack and scorer were left behind. -/
theorem dfsOverChilds_zero_congr (env : Env) (words : List Word)
    (deeper : List Nat → ResultList → EngineState → ResultList × EngineState)
    (endw : Nat → ResultList → EngineState → ResultList × EngineState)
    (cs : List Nat) : ∀ (results : ResultList) (s₁ s₂ : EngineState),
    s₁.detector = s₂.detector →
    (dfsOverChilds env words 0 deeper endw cs results s₁).1 =
    (dfsOverChilds env words 0 deeper endw cs results s₂).1 := by
  induction cs with
  | nil => intro results s₁ s₂ _; rfl
  | cons c rest ih =>
    intro results s₁ s₂ hdet
    by_cases h0 : 0 < words.length
    · rw [dfsOverChilds, dfsOverChilds]
      simp only [dif_pos h0]
      have hstack : ∀ st : VarStack,
          (match (env.tree.node c).kind with
           | NodeKind.var vn => st.update vn 0
           | _ => st.update "" 0) =
          (match (env.tree.node c).kind with
           | NodeKind.var vn => [⟨vn, 0, []⟩]
           | _ => [⟨"", 0, []⟩]) := by
        intro st
        cases (env.tree.node c).kind <;> simp [update_zero]
      by_cases hw : (0 : Int) < env.policy (env.tree.node c) words[0]
      · simp only [if_pos hw]
        have hs2 :
            ({ s₁ with
                stack := (match (env.tree.node c).kind with
                  | NodeKind.var vn => s₁.stack.update vn 0
                  | _ => s₁.stack.update "" 0).capture words[0].origWord 0,
                scorer := s₁.scorer.updateScore 0
                  (env.policy (env.tree.node c) words[0]) } : EngineState) =
            ({ s₂ with
                stack := (match (env.tree.node c).kind with
                  | NodeKind.var vn => s₂.stack.update vn 0
                  | _ => s₂.stack.update "" 0).capture words[0].origWord 0,
                scorer := s₂.scorer.updateScore 0
                  (env.policy (env.tree.node c) words[0]) } : EngineState) := by
          rw [hstack s₁.stack, hstack s₂.stack, updateScore_zero, updateScore_zero]
          cases s₁; cases s₂
          simp_all
        rw [hs2]
      · simp only [if_neg hw]
        exact ih results _ _ (by simpa using hdet)
    · rw [dfsOverChilds, dfsOverChilds]
      simp [dif_neg h0]

/-- The scored search started at offset 0 computes the same results from any
two states that agree on the loop detector. -/
theorem scoredDFSGo_zero_congr (rec_ : String → EngineState → String × EngineState)
    (env : Env) (words : List Word) (gas : Nat) (cs : List Nat) (results : ResultList)
    (s₁ s₂ : EngineState) (hdet : s₁.detector = s₂.detector) :
    (scoredDFSGo rec_ env words gas 0 cs results s₁).1 =
    (scoredDFSGo rec_ env words gas 0 cs results s₂).1 := by
  cases gas with
  | zero => rfl
  | succ g =>
    rw [scoredDFSGo, scoredDFSGo]
    exact dfsOverChilds_zero_congr env words _ _ cs results s₁ s₂ hdet

/-- A whole query computes the same answer from any two states that agree on
the loop detector. -/
theorem runQuery_congr (rec_ : String → EngineState → String × EngineState) (env : Env)
    (input : String) (s₁ s₂ : EngineState) (hdet : s₁.detector = s₂.detector) :
    (runQuery rec_ env input s₁).1 = (runQuery rec_ env input s₂).1 := by
  unfold runQuery queryResults
  simp only []
  rw [scoredDFSGo_zero_congr rec_ env _ _ _ [] s₁ s₂ hdet]

/-- Claim C2: two successive calls of `getResponses` on the same tree with
the same input return identical response lists and match trails — the stack
and scorer are implicitly reset at the top of each query and the loop
detector is restored by the first call. -/
theorem C2_determinism (env : Env) (input : String) (s : EngineState) :
    (getResponses env input ((getResponses env input s).2)).1 =
    (getResponses env input s).1 := by
  have hdet : ((getResponses env input s).2).detector = s.detector :=
    getResponsesD_detector env EXPANSION_CAP input s
  unfold getResponses
  rw [getResponsesD_eq]
  refine runQuery_congr _ env input _ s ?_
  have : getResponsesD env EXPANSION_CAP =
      runQuery (recDispatch env EXPANSION_CAP) env := getResponsesD_eq env EXPANSION_CAP
  rw [← this]
  exact hdet

/-! ## Claims C6 and C9: expansion failure semantics -/

/-- Template expansion leaves the engine state untouched when the recursive
responder restores it. -/
theorem expandVarsGo_state_id (rec_ : String → EngineState → String × EngineState)
    (hrec : ∀ inp s, (rec_ inp s).2 = s) (parts : Template) :
    ∀ s : EngineState, (expandVarsGo rec_ s parts).2.2 = s := by
  induction parts with
  | nil => intro s; rfl
  | cons p rest ih =>
    intro s
    cases p with
    | lit str => simpa only [expandVarsGo] using ih s
    | pvar n => simpa only [expandVarsGo] using ih s
    | rvar n =>
      simp only [expandVarsGo]
      split
      · exact hrec _ _
      · rw [ih]; exact hrec _ _

/-- The expansion wrapper leaves the engine state untouched when the
recursive responder restores it. -/
theorem expandVars_state_id (rec_ : String → EngineState → String × EngineState)
    (hrec : ∀ inp s, (rec_ inp s).2 = s) (s : EngineState) (tmpl : Template) :
    (expandVars rec_ s tmpl).2.2 = s :=
  expandVarsGo_state_id rec_ hrec tmpl s

/-- Expansion fails exactly when some recursive reference of the template
re-dispatches to an empty response. -/
theorem expandVarsGo_false_iff (rec_ : String → EngineState → String × EngineState)
    (hrec : ∀ inp s, (rec_ inp s).2 = s) (parts : Template) :
    ∀ s : EngineState, ((expandVarsGo rec_ s parts).2.1 = false ↔
      ∃ n, TmplPart.rvar n ∈ parts ∧ (rec_ (s.stack.value n) s).1 = "") := by
  induction parts with
  | nil => intro s; simp [expandVarsGo]
  | cons p rest ih =>
    intro s
    cases p with
    | lit str => simp only [expandVarsGo, ih s, List.mem_cons]; simp
    | pvar n => simp only [expandVarsGo, ih s, List.mem_cons]; simp
    | rvar n =>
      simp only [expandVarsGo]
      split
      next hq =>
        simp only [beq_iff_eq] at hq
        constructor
        · intro _
          exact ⟨n, List.mem_cons_self _ _, hq⟩
        · intro _; rfl
      next hq =>
        rw [hrec (s.stack.value n) s]
        simp only [beq_iff_eq] at hq
        rw [ih s]
        constructor
        · rintro ⟨m, hm, hv⟩
          exact ⟨m, List.mem_cons_of_mem _ hm, hv⟩
        · rintro ⟨m, hm, hv⟩
          rcases List.mem_cons.mp hm with heq | hm'
          · cases heq
            exact absurd hv hq
          · exact ⟨m, hm', hv⟩

/-- On failure the expansion wrapper returns the empty string. -/
theorem expandVars_fail_empty (rec_ : String → EngineState → String × EngineState)
    (s : EngineState) (tmpl : Template)
    (h : (expandVars rec_ s tmpl).2.1 = false) :
    (expandVars rec_ s tmpl).1 = "" := by
  unfold expandVars at h ⊢
  simp only [] at h ⊢
  rw [h]
  simp

/-- The omap walk leaves the engine state untouched when the recursive
responder restores it. -/
theorem goOmap_state_id (rec_ : String → EngineState → String × EngineState)
    (hrec : ∀ inp s, (rec_ inp s).2 = s) (entries : List (Nat × CondOutputList)) :
    ∀ s : EngineState, (goOmap rec_ s entries).2 = s := by
  induction entries with
  | nil => intro s; rfl
  | cons e rest ih =>
    intro s
    simp only [goOmap]
    cases hn : nextValidOutput s.stack e.2 with
    | none => exact ih s
    | some tmpl =>
      simp only
      split
      · exact expandVars_state_id rec_ hrec s tmpl
      · rw [ih]; exact expandVars_state_id rec_ hrec s tmpl

/-- The omap walk yields no output exactly when every entry fails; a failing
entry is skipped and the walk continues with the next one. -/
theorem goOmap_none_iff (rec_ : String → EngineState → String × EngineState)
    (hrec : ∀ inp s, (rec_ inp s).2 = s) (entries : List (Nat × CondOutputList)) :
    ∀ s : EngineState, ((goOmap rec_ s entries).1 = none ↔
      ∀ e ∈ entries, omapEntryFails rec_ s e = true) := by
  induction entries with
  | nil => intro s; simp [goOmap]
  | cons e rest ih =>
    intro s
    simp only [goOmap]
    cases hn : nextValidOutput s.stack e.2 with
    | none =>
      simp only [ih s, List.mem_cons, omapEntryFails]
      constructor
      · intro h e' he'
        rcases he' with rfl | he'
        · rw [hn]
        · exact h e' he'
      · intro h e' he'
        exact h e' (Or.inr he')
    | some tmpl =>
      simp only
      split
      next hok =>
        simp only [reduceCtorEq, false_iff]
        intro hall
        have := hall e (List.mem_cons_self _ _)
        rw [omapEntryFails, hn] at this
        simp only [beq_iff_eq] at this
        rw [hok] at this
        cases this
      next hok =>
        rw [expandVars_state_id rec_ hrec s tmpl, ih s]
        constructor
        · intro h e' he'
          rcases List.mem_cons.mp he' with rfl | he'
          · rw [omapEntryFails, hn]
            simp only [beq_iff_eq]
            exact Bool.eq_false_iff.mpr hok ▸ by
              cases hb : (expandVars rec_ s tmpl).2.1
              · simp
              · exact absurd hb hok
          · exact h e' he'
        · intro h e' he'
          exact h e' (List.mem_cons_of_mem _ he')

/-- When every omap entry of a node fails, the terminal handler yields no
result and restores the state: no error is raised to the caller. -/
theorem handleEndWordP_all_fail (rec_ : String → EngineState → String × EngineState)
    (hrec : ∀ inp s, (rec_ inp s).2 = s) (env : Env) (s : EngineState)
    (results : ResultList) (nodeId offset : Nat)
    (hfail : ∀ e ∈ (env.tree.node nodeId).omap,
      omapEntryFails rec_ { s with detector := (nodeId, offset) :: s.detector } e = true) :
    handleEndWordP rec_ env s results nodeId offset = (results, s) := by
  unfold handleEndWordP
  simp only []
  split
  · rfl
  · have hnone : (getValidOutputP rec_ env
        { s with detector := (nodeId, offset) :: s.detector } nodeId).1 = none :=
      (goOmap_none_iff rec_ hrec _ _).mpr hfail
    have hstate : (getValidOutputP rec_ env
        { s with detector := (nodeId, offset) :: s.detector } nodeId).2 =
        { s with detector := (nodeId, offset) :: s.detector } :=
      goOmap_state_id rec_ hrec _ _
    rw [hnone, hstate]
    simp [List.erase_cons_head]

/-- Claim C6: during output selection, template expansion fails (flag false,
empty string) exactly when some recursive variable reference re-dispatches to
an empty response; a failing omap entry is skipped in favour of the next one,
the walk yields no output exactly when every entry fails, and in that case the
terminal handler returns the results and state unchanged — no error reaches
the caller. -/
theorem C6_expansion_failure (env : Env) (d : Nat) (s : EngineState) (tmpl : Template)
    (nodeId offset : Nat) (results : ResultList)
    (hfail : ∀ e ∈ (env.tree.node nodeId).omap,
      omapEntryFails (recDispatch env d)
        { s with detector := (nodeId, offset) :: s.detector } e = true) :
    ((expandVars (recDispatch env d) s tmpl).2.1 = false ↔
      ∃ n, TmplPart.rvar n ∈ tmpl ∧ (recDispatch env d (s.stack.value n) s).1 = "") ∧
    ((expandVars (recDispatch env d) s tmpl).2.1 = false →
      (expandVars (recDispatch env d) s tmpl).1 = "") ∧
    (∀ entries : List (Nat × CondOutputList),
      ((goOmap (recDispatch env d) s entries).1 = none ↔
        ∀ e ∈ entries, omapEntryFails (recDispatch env d) s e = true)) ∧
    handleEndWordP (recDispatch env d) env s results nodeId offset = (results, s) := by
  have hrec : ∀ inp s', (recDispatch env d inp s').2 = s' := recDispatch_state_id env d
  refine ⟨?_, expandVars_fail_empty _ s tmpl, ?_, ?_⟩
  · exact expandVarsGo_false_iff _ hrec tmpl s
  · intro entries
    exact goOmap_none_iff _ hrec entries s
  · exact handleEndWordP_all_fail _ hrec env s results nodeId offset hfail

/-- Witness for claim C6: on the root node (empty omap) with an empty
detector, the terminal handler returns the accumulator and state unchanged. -/
theorem C6_expansion_failure_witness :
    handleEndWordP (recDispatch sampleEnv 1) sampleEnv emptyState [] 0 0 =
      ([], emptyState) :=
  (C6_expansion_failure sampleEnv 1 emptyState [] 0 0 [] (by decide)).2.2.2

/-- Claim C9: a plain variable reference whose stack value is empty does not
make expansion fail — the empty string is substituted and the flag is
whatever the rest of the template yields; only a recursive reference whose
re-dispatched response is empty forces the flag to false. -/
theorem C9_plain_empty_substitution (env : Env) (d : Nat) (s : EngineState)
    (name : String) (rest : Template) (hempty : s.stack.value name = "") :
    (expandVarsGo (recDispatch env d) s (TmplPart.pvar name :: rest)).1 =
      (expandVarsGo (recDispatch env d) s rest).1 ∧
    (expandVarsGo (recDispatch env d) s (TmplPart.pvar name :: rest)).2.1 =
      (expandVarsGo (recDispatch env d) s rest).2.1 ∧
    ((expandVarsGo (recDispatch env d) s (TmplPart.pvar name :: rest)).2.1 = false ↔
      ∃ n, TmplPart.rvar n ∈ rest ∧ (recDispatch env d (s.stack.value n) s).1 = "") := by
  have hrec : ∀ inp s', (recDispatch env d inp s').2 = s' := recDispatch_state_id env d
  refine ⟨?_, rfl, ?_⟩
  · simp only [expandVarsGo, hempty]
    simp
  · rw [expandVarsGo_false_iff _ hrec _ s]
    constructor
    · rintro ⟨m, hm, hv⟩
      rcases List.mem_cons.mp hm with heq | hm'
      · cases heq
      · exact ⟨m, hm', hv⟩
    · rintro ⟨m, hm, hv⟩
      exact ⟨m, List.mem_cons_of_mem _ hm, hv⟩

/-- Witness for claim C9: expanding a template that is a single plain
reference to an uncaptured variable yields the empty string with the flag
still true. -/
theorem C9_plain_empty_substitution_witness :
    (expandVarsGo (recDispatch sampleEnv 1) emptyState
      [TmplPart.pvar "y"]).1 =
      (expandVarsGo (recDispatch sampleEnv 1) emptyState []).1 :=
  (C9_plain_empty_substitution sampleEnv 1 emptyState "y" [] (by decide)).1

/-! ## Tree arena access lemmas -/

/-- Reading an updated slot. -/
theorem getD_set_self {α : Type} (l : List α) (i : Nat) (a d : α) (h : i < l.length) :
    (l.set i a).getD i d = a := by
  rw [List.getD_eq_getElem?_getD, List.getElem?_set_self]
  · simp
  · exact h

/-- Reading another slot after an update. -/
theorem getD_set_ne {α : Type} (l : List α) (i j : Nat) (a d : α) (h : j ≠ i) :
    (l.set i a).getD j d = l.getD j d := by
  rw [List.getD_eq_getElem?_getD, List.getElem?_set_ne (fun x => h x.symm),
    ← List.getD_eq_getElem?_getD]

/-- Reading an existing slot after appending. -/
theorem getD_append_left {α : Type} (l₁ l₂ : List α) (i : Nat) (d : α)
    (h : i < l₁.length) : (l₁ ++ l₂).getD i d = l₁.getD i d := by
  rw [List.getD_eq_getElem?_getD, List.getElem?_append, if_pos h,
    ← List.getD_eq_getElem?_getD]

/-- Reading the appended slot. -/
theorem getD_append_last {α : Type} (l : List α) (a d : α) :
    (l ++ [a]).getD l.length d = a := by
  rw [List.getD_eq_getElem?_getD]
  simp

/-- Reading an updated node. -/
theorem node_setNode_self (t : Tree) (i : Nat) (n : Node) (h : i < t.size) :
    (t.setNode i n).node i = n :=
  getD_set_self t.nodes i n default h

/-- Reading another node after an update. -/
theorem node_setNode_ne (t : Tree) (i j : Nat) (n : Node) (h : j ≠ i) :
    (t.setNode i n).node j = t.node j :=
  getD_set_ne t.nodes i j n default h

/-- A node whose payload is not the default root payload lies inside the
arena. -/
theorem lt_size_of_kind_ne_root (t : Tree) (i : Nat)
    (h : (t.node i).kind ≠ NodeKind.root) : i < t.size := by
  by_contra hge
  unfold Tree.size at hge
  have : t.node i = default := by
    unfold Tree.node
    rw [List.getD_eq_getElem?_getD, List.getElem?_eq_none (by omega)]
    rfl
  rw [this] at h
  exact h rfl

/-! ## Claim C7: wildcard children are unique and star subsumes plus -/

/-- Claim C7: when the parent already has a wildcard child, `addNode` with a
wildcard token reuses that child instead of creating a second one — lowering
its `min` to 0 when the incoming token is `*` and the existing child has
`min = 1` — so after inserting a rule with `+` and then a rule with `*` at
the same position exactly one wildcard child exists there and it has
`min = 0`. -/
theorem C7_wildcard_unique (t : Tree) (w : Word) (p c : Nat)
    (hw : w.isWildcard = true)
    (hfind : (t.node p).childs.find? (fun c => t.isWildcardAt c) = some c) :
    (t.addNode w p =
      ((if w.origWord == STAR_OP && t.wcMin c == some 1 then t.setWcMin c 0 else t), c)) ∧
    (w.origWord = STAR_OP → t.wcMin c = some 1 →
      (t.addNode w p).1.wcMin c = some 0 ∧ ((t.addNode w p).1).size = t.size) ∧
    (treePS.wildcardChilds 1 = [2] ∧ treePS.wcMin 2 = some 0) := by
  have hnw : w.isWord = false := by
    unfold Word.isWord
    rw [hw]
    simp
  have heq : t.addNode w p =
      ((if w.origWord == STAR_OP && t.wcMin c == some 1 then t.setWcMin c 0 else t), c) := by
    unfold Tree.addNode
    rw [hnw, hw]
    simp only [if_neg, Bool.false_eq_true, if_false, if_true, hfind]
  refine ⟨heq, ?_, by decide, by decide⟩
  intro hstar hmin
  have hcond : (w.origWord == STAR_OP && t.wcMin c == some 1) = true := by
    rw [hstar, hmin]
    simp
  have hclt : c < t.size := by
    apply lt_size_of_kind_ne_root
    intro hk
    rw [Tree.wcMin, hk] at hmin
    cases hmin
  cases hk : (t.node c).kind with
  | root => rw [Tree.wcMin, hk] at hmin; cases hmin
  | word w' => rw [Tree.wcMin, hk] at hmin; cases hmin
  | var vn => rw [Tree.wcMin, hk] at hmin; cases hmin
  | wildcard o m =>
    constructor
    · rw [heq]
      simp only [hcond, if_true]
      unfold Tree.setWcMin
      rw [hk]
      unfold Tree.wcMin
      rw [node_setNode_self t c _ hclt]
    · rw [heq]
      simp only [hcond, if_true]
      unfold Tree.setWcMin
      rw [hk]
      unfold Tree.size Tree.setNode
      simp

/-- Witness for claim C7: in the tree holding only the `+` rule, adding a
`*` token under the node of `a` lowers the existing wildcard child's `min`
to 0 and creates no node. -/
theorem C7_wildcard_unique_witness :
    (treeP.addNode starWord 1).1.wcMin 2 = some 0 ∧
      ((treeP.addNode starWord 1).1).size = treeP.size :=
  (C7_wildcard_unique treeP starWord 1 2 (by decide) (by decide)).2.1 rfl (by decide)

/-! ## Claim C3: the zero-hop shortcut invariant -/

/-- Reading any slot after appending one node. -/
theorem node_append (t : Tree) (n : Node) (j : Nat) :
    (Tree.mk (t.nodes ++ [n])).node j = if j = t.size then n else t.node j := by
  by_cases hj : j = t.size
  · subst hj
    rw [if_pos rfl]
    exact getD_append_last t.nodes n default
  · rw [if_neg hj]
    by_cases hlt : j < t.size
    · exact getD_append_left t.nodes [n] j default hlt
    · unfold Tree.node
      unfold Tree.size at hj hlt
      rw [List.getD_eq_getElem?_getD, List.getElem?_eq_none (by simp; omega),
        List.getD_eq_getElem?_getD, List.getElem?_eq_none (by omega)]

/-- Reading any slot after updating one node in range. -/
theorem node_setNode (t : Tree) (i : Nat) (n : Node) (j : Nat) (hi : i < t.size) :
    (t.setNode i n).node j = if j = i then n else t.node j := by
  by_cases hj : j = i
  · subst hj; rw [if_pos rfl]; exact node_setNode_self t j n hi
  · rw [if_neg hj]; exact node_setNode_ne t i j n hj

/-- Sizes after updating a node. -/
theorem setNode_size (t : Tree) (i : Nat) (n : Node) : (t.setNode i n).size = t.size := by
  unfold Tree.setNode Tree.size
  simp

/-- Creation adds exactly one node. -/
theorem createNode_size (t : Tree) (w : Word) (p : Nat) :
    ((t.createNode w p).1).size = t.size + 1 := by
  unfold Tree.createNode
  simp only []
  split
  · rw [setNode_size, setNode_size]
    unfold Tree.size
    simp
  · rw [setNode_size]
    unfold Tree.size
    simp

/-- Creation returns the fresh index. -/
theorem createNode_id (t : Tree) (w : Word) (p : Nat) :
    (t.createNode w p).2 = t.size := rfl

/-- Full characterisation of the arena after a creation step: the fresh node
carries the created payload, the parent gains the fresh child, the
grandparent gains it too when the parent is a zero-min wildcard, and every
other node is untouched. -/
theorem createNode_node (t : Tree) (w : Word) (p j : Nat) (hp : p < t.size)
    (hgplt : (t.node p).parent < t.size)
    (hgpne : t.isWildcardMin0 p = true → (t.node p).parent ≠ p) :
    ((t.createNode w p).1).node j =
      if j = t.size then ⟨createdKind w, p, createdChilds w t.size, []⟩
      else if j = p then { t.node p with childs := (t.node p).childs ++ [t.size] }
      else if t.isWildcardMin0 p = true ∧ j = (t.node p).parent then
        { t.node ((t.node p).parent) with
          childs := (t.node ((t.node p).parent)).childs ++ [t.size] }
      else t.node j := by
  have hp1 : p < (Tree.mk (t.nodes ++ [(⟨createdKind w, p, createdChilds w t.size, []⟩ : Node)])).size := by
    unfold Tree.size
    unfold Tree.size at hp
    simp
    omega
  unfold Tree.createNode
  simp only []
  by_cases hsp : t.isWildcardMin0 p = true
  · rw [if_pos hsp]
    have hgp_ne_p : (t.node p).parent ≠ p := hgpne hsp
    have hgp2 : (t.node p).parent <
        ((Tree.mk (t.nodes ++ [(⟨createdKind w, p, createdChilds w t.size, []⟩ : Node)])).setNode p
          { t.node p with childs := (t.node p).childs ++ [t.size] }).size := by
      rw [setNode_size]
      unfold Tree.size
      unfold Tree.size at hgplt
      simp
      omega
    have hread : ((Tree.mk (t.nodes ++ [(⟨createdKind w, p, createdChilds w t.size, []⟩ : Node)])).setNode p
          { t.node p with childs := (t.node p).childs ++ [t.size] }).node ((t.node p).parent) =
        t.node ((t.node p).parent) := by
      rw [node_setNode _ _ _ _ hp1, if_neg hgp_ne_p, node_append,
        if_neg (by omega)]
    rw [hread]
    rw [node_setNode _ _ _ _ hgp2]
    by_cases hjgp : j = (t.node p).parent
    · subst hjgp
      rw [if_pos rfl, if_neg (by omega), if_neg hgp_ne_p, if_pos ⟨hsp, rfl⟩]
    · rw [if_neg hjgp, node_setNode _ _ _ _ hp1]
      by_cases hjp : j = p
      · subst hjp
        rw [if_pos rfl, if_neg (by omega), if_pos rfl]
      · rw [if_neg hjp, node_append]
        by_cases hjn : j = t.size
        · rw [if_pos hjn, if_pos hjn]
        · rw [if_neg hjn, if_neg hjn, if_neg hjp, if_neg (fun h => hjgp h.2)]
  · rw [if_neg hsp]
    rw [node_setNode _ _ _ _ hp1]
    by_cases hjp : j = p
    · subst hjp
      rw [if_pos rfl, if_neg (by omega), if_pos rfl]
    · rw [if_neg hjp, node_append]
      by_cases hjn : j = t.size
      · rw [if_pos hjn, if_pos hjn]
      · rw [if_neg hjn, if_neg hjn, if_neg hjp,
          if_neg (fun h => hsp h.1)]

/-- Wildcard recognition depends only on the payload. -/
theorem isWildcardAt_of_kind_eq {t t' : Tree} {j : Nat}
    (h : (t'.node j).kind = (t.node j).kind) : t'.isWildcardAt j = t.isWildcardAt j := by
  unfold Tree.isWildcardAt
  rw [h]

/-- The minimum of a wildcard depends only on the payload. -/
theorem wcMin_of_kind_eq {t t' : Tree} {j : Nat}
    (h : (t'.node j).kind = (t.node j).kind) : t'.wcMin j = t.wcMin j := by
  unfold Tree.wcMin
  rw [h]

/-- A zero-min wildcard is a wildcard. -/
theorem isWildcardAt_of_min0 {t : Tree} {i : Nat} (h : t.isWildcardMin0 i = true) :
    t.isWildcardAt i = true := by
  unfold Tree.isWildcardMin0 Tree.wcMin at h
  unfold Tree.isWildcardAt
  cases hk : (t.node i).kind <;> rw [hk] at h <;> simp_all

/-- A wildcard with minimum zero is a zero-min wildcard. -/
theorem isWildcardMin0_of_wcMin {t : Tree} {i : Nat} (h : t.wcMin i = some 0) :
    t.isWildcardMin0 i = true := by
  unfold Tree.isWildcardMin0
  rw [h]
  rfl

/-- Payloads of pre-existing nodes survive a creation step. -/
theorem createNode_kind_pres (t : Tree) (w : Word) (p : Nat) (hp : p < t.size)
    (hgplt : (t.node p).parent < t.size)
    (hgpne : t.isWildcardMin0 p = true → (t.node p).parent ≠ p)
    (j : Nat) (hj : j ≠ t.size) :
    (((t.createNode w p).1).node j).kind = (t.node j).kind := by
  rw [createNode_node t w p j hp hgplt hgpne, if_neg hj]
  split
  · next h => subst h; rfl
  · split
    · next h => rw [h.2]
    · rfl

/-- Parent links of pre-existing nodes survive a creation step. -/
theorem createNode_parent_pres (t : Tree) (w : Word) (p : Nat) (hp : p < t.size)
    (hgplt : (t.node p).parent < t.size)
    (hgpne : t.isWildcardMin0 p = true → (t.node p).parent ≠ p)
    (j : Nat) (hj : j ≠ t.size) :
    (((t.createNode w p).1).node j).parent = (t.node j).parent := by
  rw [createNode_node t w p j hp hgplt hgpne, if_neg hj]
  split
  · next h => subst h; rfl
  · split
    · next h => rw [h.2]
    · rfl

/-- Child lists of pre-existing nodes either survive a creation step or gain
exactly the fresh index. -/
theorem createNode_childs_cases (t : Tree) (w : Word) (p : Nat) (hp : p < t.size)
    (hgplt : (t.node p).parent < t.size)
    (hgpne : t.isWildcardMin0 p = true → (t.node p).parent ≠ p)
    (j : Nat) (hj : j ≠ t.size) :
    (((t.createNode w p).1).node j).childs = (t.node j).childs ∨
    (((t.createNode w p).1).node j).childs = (t.node j).childs ++ [t.size] := by
  rw [createNode_node t w p j hp hgplt hgpne, if_neg hj]
  split
  · next h => subst h; right; rfl
  · split
    · next h => rw [h.2]; right; rfl
    · left; rfl

/-- Child lists of pre-existing nodes only grow in a creation step. -/
theorem createNode_childs_sup (t : Tree) (w : Word) (p : Nat) (hp : p < t.size)
    (hgplt : (t.node p).parent < t.size)
    (hgpne : t.isWildcardMin0 p = true → (t.node p).parent ≠ p)
    (j : Nat) (hj : j ≠ t.size) (c : Nat) (hc : c ∈ (t.node j).childs) :
    c ∈ (((t.createNode w p).1).node j).childs := by
  rcases createNode_childs_cases t w p hp hgplt hgpne j hj with h | h
  · rw [h]; exact hc
  · rw [h]; exact List.mem_append_left _ hc

/-- The parent's child list after a creation step. -/
theorem createNode_childs_p (t : Tree) (w : Word) (p : Nat) (hp : p < t.size)
    (hgplt : (t.node p).parent < t.size)
    (hgpne : t.isWildcardMin0 p = true → (t.node p).parent ≠ p) :
    (((t.createNode w p).1).node p).childs = (t.node p).childs ++ [t.size] := by
  rw [createNode_node t w p p hp hgplt hgpne, if_neg (by omega), if_pos rfl]

/-- The grandparent's child list after a splicing creation step. -/
theorem createNode_childs_gp (t : Tree) (w : Word) (p : Nat) (hp : p < t.size)
    (hgplt : (t.node p).parent < t.size)
    (hgpne : t.isWildcardMin0 p = true → (t.node p).parent ≠ p)
    (hsp : t.isWildcardMin0 p = true) :
    (((t.createNode w p).1).node ((t.node p).parent)).childs =
      (t.node ((t.node p).parent)).childs ++ [t.size] := by
  rw [createNode_node t w p _ hp hgplt hgpne, if_neg (by omega),
    if_neg (hgpne hsp), if_pos ⟨hsp, rfl⟩]

/-- The fresh node after a creation step. -/
theorem createNode_node_new (t : Tree) (w : Word) (p : Nat) (hp : p < t.size)
    (hgplt : (t.node p).parent < t.size)
    (hgpne : t.isWildcardMin0 p = true → (t.node p).parent ≠ p) :
    ((t.createNode w p).1).node t.size =
      ⟨createdKind w, p, createdChilds w t.size, []⟩ := by
  rw [createNode_node t w p _ hp hgplt hgpne, if_pos rfl]

/-- A creation step under a valid parent preserves the zero-hop invariants,
provided the token is not `+` and, when it is a wildcard, the parent has no
wildcard child yet. -/
theorem createNode_WF (t : Tree) (w : Word) (p : Nat) (hWF : WFnp t) (hp : p < t.size)
    (hnp : w.origWord ≠ PLUS_OP)
    (hnowc : w.isWildcard = true → ∀ c ∈ (t.node p).childs, t.isWildcardAt c = false) :
    WFnp (t.createNode w p).1 := by
  obtain ⟨hpos, hroot, hbounds, hparlt, hwc⟩ := hWF
  have hgplt : (t.node p).parent < t.size := (hbounds p hp).1
  have hgpne : t.isWildcardMin0 p = true → (t.node p).parent ≠ p := by
    intro hsp heq
    have hwa := isWildcardAt_of_min0 hsp
    have hgpf := (hwc p hp hwa).2.2.1
    rw [heq, hwa] at hgpf
    cases hgpf
  have hpwcfalse : w.isWildcard = true → t.isWildcardAt p = false := by
    intro hww
    by_cases hwa : t.isWildcardAt p = true
    · have hself := (hwc p hp hwa).2.1
      have hf := hnowc hww p hself
      rw [hf] at hwa
      cases hwa
    · simpa using hwa
  have hsize : ((t.createNode w p).1).size = t.size + 1 := createNode_size t w p
  have hnew := createNode_node_new t w p hp hgplt hgpne
  have hkind := createNode_kind_pres t w p hp hgplt hgpne
  have hpar := createNode_parent_pres t w p hp hgplt hgpne
  have hsup := createNode_childs_sup t w p hp hgplt hgpne
  have hccases := createNode_childs_cases t w p hp hgplt hgpne
  refine ⟨?_, ?_, ?_, ?_, ?_⟩
  · rw [hsize]; omega
  · rw [hkind 0 (by omega)]
    exact hroot
  · intro i hi
    rw [hsize] at hi
    by_cases hiN : i = t.size
    · subst hiN
      constructor
      · rw [hsize, hnew]
        show p < t.size + 1
        omega
      · intro c hc
        rw [hnew] at hc
        rw [hsize]
        unfold createdChilds at hc
        split at hc
        · simp at hc
          omega
        · cases hc
    · have hi2 : i < t.size := by omega
      constructor
      · rw [hpar i hiN, hsize]
        have := (hbounds i hi2).1
        omega
      · intro c hc
        rw [hsize]
        rcases hccases i hiN with h | h
        · rw [h] at hc
          have := (hbounds i hi2).2 c hc
          omega
        · rw [h] at hc
          rcases List.mem_append.mp hc with hc | hc
          · have := (hbounds i hi2).2 c hc
            omega
          · simp at hc
            omega
  · intro i h0i hi
    rw [hsize] at hi
    by_cases hiN : i = t.size
    · subst hiN
      rw [hnew]
      exact hp
    · have hi2 : i < t.size := by omega
      rw [hpar i hiN]
      exact hparlt i h0i hi2
  · intro i hi hwa2
    rw [hsize] at hi
    by_cases hiN : i = t.size
    · subst hiN
      have hck : ∃ o m, createdKind w = NodeKind.wildcard o m := by
        unfold Tree.isWildcardAt at hwa2
        rw [hnew] at hwa2
        cases hk : createdKind w <;> rw [hk] at hwa2
        · cases hwa2
        · cases hwa2
        · exact ⟨_, _, rfl⟩
        · cases hwa2
      have hww : w.isWildcard = true := by
        by_contra hnw
        have hnw2 : w.isWildcard = false := by
          cases hb : w.isWildcard
          · rfl
          · exact absurd hb hnw
        obtain ⟨o, m, hk⟩ := hck
        unfold createdKind at hk
        rw [hnw2] at hk
        simp only [Bool.false_eq_true, if_false] at hk
        split at hk <;> cases hk
      have hstar : w.origWord = STAR_OP := by
        unfold Word.isWildcard at hww
        rcases Bool.or_eq_true_iff.mp hww with h | h
        · exact beq_iff_eq.mp h
        · exact absurd (beq_iff_eq.mp h) hnp
      have hkNw : (((t.createNode w p).1).node t.size).kind =
          NodeKind.wildcard w.origWord 0 := by
        rw [hnew]
        show createdKind w = NodeKind.wildcard w.origWord 0
        unfold createdKind
        rw [if_pos hww, if_pos (by rw [hstar]; rfl)]
      refine ⟨?_, ?_, ?_, ?_⟩
      · unfold Tree.wcMin
        rw [hkNw]
      · rw [hnew]
        show t.size ∈ createdChilds w t.size
        unfold createdChilds
        rw [if_pos (by rw [hww]; rfl)]
        exact List.mem_singleton.mpr rfl
      · rw [hnew]
        show ((t.createNode w p).1).isWildcardAt p = false
        rw [isWildcardAt_of_kind_eq (hkind p (by omega))]
        exact hpwcfalse hww
      · intro c hc
        rw [hnew] at hc ⊢
        show c ∈ (((t.createNode w p).1).node p).childs
        rw [createNode_childs_p t w p hp hgplt hgpne]
        refine List.mem_append_right _ ?_
        unfold createdChilds at hc
        split at hc
        · exact hc
        · cases hc
    · have hi2 : i < t.size := by omega
      have hwa : t.isWildcardAt i = true := by
        rw [← isWildcardAt_of_kind_eq (hkind i hiN)]
        exact hwa2
      obtain ⟨hm0, hself, hgpnw, hsub⟩ := hwc i hi2 hwa
      have hpari : (((t.createNode w p).1).node i).parent = (t.node i).parent := hpar i hiN
      have hparlt2 : (t.node i).parent < t.size := (hbounds i hi2).1
      have hparNe : (t.node i).parent ≠ t.size := by omega
      refine ⟨?_, ?_, ?_, ?_⟩
      · rw [wcMin_of_kind_eq (hkind i hiN)]
        exact hm0
      · exact hsup i hiN i hself
      · rw [hpari, isWildcardAt_of_kind_eq (hkind _ hparNe)]
        exact hgpnw
      · intro c hc
        rw [hpari]
        by_cases hip : i = p
        · subst hip
          have hsp : t.isWildcardMin0 i = true := isWildcardMin0_of_wcMin hm0
          rw [createNode_childs_p t w i hp hgplt hgpne] at hc
          rw [createNode_childs_gp t w i hp hgplt hgpne hsp]
          rcases List.mem_append.mp hc with hc | hc
          · exact List.mem_append_left _ (hsub c hc)
          · exact List.mem_append_right _ hc
        · have hchi : (((t.createNode w p).1).node i).childs = (t.node i).childs := by
            rw [createNode_node t w p i hp hgplt hgpne, if_neg hiN, if_neg hip, if_neg ?hgp]
            case hgp =>
              rintro ⟨hsp, hieq⟩
              have hwap := isWildcardAt_of_min0 hsp
              have hgpf := (hwc p hp hwap).2.2.1
              rw [← hieq, hwa] at hgpf
              cases hgpf
          rw [hchi] at hc
          exact hsup _ hparNe c (hsub c hc)

/-- A node-insertion step preserves the zero-hop invariants and returns an
index inside the new arena. -/
theorem addNode_WF (t : Tree) (w : Word) (p : Nat) (hWF : WFnp t) (hp : p < t.size)
    (hnp : w.origWord ≠ PLUS_OP) :
    WFnp (t.addNode w p).1 ∧ (t.addNode w p).2 < ((t.addNode w p).1).size := by
  unfold Tree.addNode
  simp only []
  cases hA : (if w.isWord = true then
      (t.node p).childs.find? (fun c => t.isWordChildFor c w) else none) with
  | some c =>
    refine ⟨hWF, ?_⟩
    have hc : c ∈ (t.node p).childs := by
      split at hA
      · exact List.mem_of_find?_eq_some hA
      · cases hA
    exact (hWF.2.2.1 p hp).2 c hc
  | none =>
    cases hB : (if w.isWildcard = true then
        (t.node p).childs.find? (fun c => t.isWildcardAt c) else none) with
    | some c =>
      have hc : c ∈ (t.node p).childs ∧ t.isWildcardAt c = true := by
        split at hB
        · exact ⟨List.mem_of_find?_eq_some hB, List.find?_some hB⟩
        · cases hB
      have hclt : c < t.size := (hWF.2.2.1 p hp).2 c hc.1
      have hmin : t.wcMin c = some 0 := (hWF.2.2.2.2 c hclt hc.2).1
      have hcond : (w.origWord == STAR_OP && t.wcMin c == some 1) = false := by
        rw [hmin]
        simp
      simp only []
      rw [hcond]
      simp only [Bool.false_eq_true, if_false]
      exact ⟨hWF, hclt⟩
    | none =>
      have hnowc : w.isWildcard = true → ∀ c ∈ (t.node p).childs,
          t.isWildcardAt c = false := by
        intro hww c hc
        rw [if_pos hww] at hB
        have := List.find?_eq_none.mp hB c hc
        simpa using this
      refine ⟨createNode_WF t w p hWF hp hnp hnowc, ?_⟩
      rw [createNode_id, createNode_size]
      omega

/-- Folding the tokens of one input through `addNode` preserves the
invariants, the cursor staying inside the arena. -/
theorem foldAddNode_WF (words : List Word)
    (hnp : ∀ w ∈ words, w.origWord ≠ PLUS_OP) :
    ∀ (t : Tree) (p : Nat), WFnp t → p < t.size →
      WFnp ((words.foldl (fun (st : Tree × Nat) w => st.1.addNode w st.2) (t, p)).1) ∧
      (words.foldl (fun (st : Tree × Nat) w => st.1.addNode w st.2) (t, p)).2 <
        ((words.foldl (fun (st : Tree × Nat) w => st.1.addNode w st.2) (t, p)).1).size := by
  induction words with
  | nil => exact fun t p h hp => ⟨h, hp⟩
  | cons w ws ih =>
    intro t p hWF hp
    simp only [List.foldl_cons]
    have hstep := addNode_WF t w p hWF hp (hnp w (List.mem_cons_self _ _))
    exact ih (fun w' hw' => hnp w' (List.mem_cons_of_mem _ hw'))
      (t.addNode w p).1 (t.addNode w p).2 hstep.1 hstep.2

/-- Transport of the invariants along a pointwise-equal tree (payloads,
parents and child lists agree everywhere and the sizes agree). -/
theorem WFnp_congr (t t' : Tree) (hsz : t'.size = t.size)
    (hk : ∀ j, (t'.node j).kind = (t.node j).kind)
    (hpr : ∀ j, (t'.node j).parent = (t.node j).parent)
    (hch : ∀ j, (t'.node j).childs = (t.node j).childs) :
    WFnp t → WFnp t' := by
  rintro ⟨h1, h2, h3, h4, h5⟩
  refine ⟨by omega, by rw [hk 0]; exact h2, ?_, ?_, ?_⟩
  · intro i hi
    rw [hsz] at hi
    rw [hpr i, hch i, hsz]
    exact h3 i hi
  · intro i h0 hi
    rw [hsz] at hi
    rw [hpr i]
    exact h4 i h0 hi
  · intro i hi hwa
    rw [hsz] at hi
    have hwa' : t.isWildcardAt i = true := by
      rw [← isWildcardAt_of_kind_eq (hk i)]
      exact hwa
    obtain ⟨ha, hb, hcc, hd⟩ := h5 i hi hwa'
    refine ⟨?_, ?_, ?_, ?_⟩
    · rw [wcMin_of_kind_eq (hk i)]
      exact ha
    · rw [hch i]
      exact hb
    · rw [hpr i, isWildcardAt_of_kind_eq (hk _)]
      exact hcc
    · intro c hc
      rw [hch i] at hc
      rw [hpr i, hch _]
      exact hd c hc

/-- Replacing only the output map of one node preserves the invariants. -/
theorem setNode_omap_WF (t : Tree) (i : Nat) (v : List (Nat × CondOutputList))
    (hWF : WFnp t) : WFnp (t.setNode i { t.node i with omap := v }) := by
  by_cases hi : i < t.size
  · refine WFnp_congr t _ (setNode_size t i _) ?_ ?_ ?_ hWF <;> intro j <;>
      rw [node_setNode t i _ j hi] <;> split <;> simp_all
  · have : t.setNode i { t.node i with omap := v } = t := by
      unfold Tree.setNode
      rw [List.set_eq_of_length_le]
      unfold Tree.size at hi
      omega
    rw [this]
    exact hWF

/-- Installing rule outputs preserves the invariants. -/
theorem addNodeOutput_WF (rule : Rule) (onodes : List (Nat × Nat)) :
    ∀ t : Tree, WFnp t → WFnp (t.addNodeOutput rule onodes) := by
  induction onodes with
  | nil => exact fun t h => h
  | cons o rest ih =>
    intro t hWF
    unfold Tree.addNodeOutput
    simp only [List.foldl_cons]
    exact ih _ (setNode_omap_WF t o.2 _ hWF)

/-- One per-input step of rule insertion preserves the invariants. -/
theorem addStep_WF (lem : String → List Word) (acc : Tree × List (Nat × Nat))
    (iw : Nat × String) (h : noPlusWords (parseRuleInput lem iw.2) = true)
    (hWF : WFnp acc.1) : WFnp ((Tree.addStep lem acc iw).1) := by
  unfold Tree.addStep
  simp only []
  split
  · exact hWF
  · have hnp : ∀ w ∈ parseRuleInput lem iw.2, w.origWord ≠ PLUS_OP := by
      intro w hw
      have := List.all_eq_true.mp h w hw
      simpa using this
    exact (foldAddNode_WF _ hnp acc.1 0 hWF hWF.1).1

/-- Rule insertion preserves the invariants when the rule is `+`-free. -/
theorem add_WF (lem : String → List Word) (t : Tree) (rule : Rule)
    (hWF : WFnp t) (hnp : noPlusRule lem rule = true) : WFnp (t.add lem rule) := by
  unfold Tree.add
  simp only []
  apply addNodeOutput_WF
  have main : ∀ (l : List (Nat × String)) (acc : Tree × List (Nat × Nat)),
      (∀ iw ∈ l, noPlusWords (parseRuleInput lem iw.2) = true) → WFnp acc.1 →
      WFnp ((l.foldl (Tree.addStep lem) acc).1) := by
    intro l
    induction l with
    | nil => exact fun acc _ h => h
    | cons iw rest ih =>
      intro acc hall hacc
      simp only [List.foldl_cons]
      exact ih _ (fun x hx => hall x (List.mem_cons_of_mem _ hx))
        (addStep_WF lem acc iw (hall iw (List.mem_cons_self _ _)) hacc)
  apply main
  · intro iw hiw
    have h2 : iw.2 ∈ rule.input := List.snd_mem_of_mem_enum hiw
    have := List.all_eq_true.mp hnp iw.2 h2
    simpa using this
  · exact hWF

/-- The empty tree satisfies the invariants. -/
theorem WFnp_empty : WFnp emptyTree := by
  have hsz : emptyTree.size = 1 := rfl
  refine ⟨by decide, by decide, ?_, ?_, ?_⟩
  · intro i hi
    rw [hsz] at hi
    have h0 : i = 0 := by omega
    subst h0
    exact ⟨by decide, by decide⟩
  · intro i h0 hi
    rw [hsz] at hi
    omega
  · intro i hi hwa
    rw [hsz] at hi
    have h0 : i = 0 := by omega
    subst h0
    exact absurd hwa (by decide)

/-- Trees built from `+`-free rules satisfy the invariants. -/
theorem buildTree_WF (lem : String → List Word) (rules : List Rule)
    (h : rules.all (noPlusRule lem) = true) : WFnp (buildTree lem rules) := by
  unfold buildTree
  have main : ∀ (rs : List Rule) (t : Tree), (∀ r ∈ rs, noPlusRule lem r = true) →
      WFnp t → WFnp (rs.foldl (Tree.add lem) t) := by
    intro rs
    induction rs with
    | nil => exact fun t _ h => h
    | cons r rest ih =>
      intro t hall hWF
      simp only [List.foldl_cons]
      exact ih _ (fun x hx => hall x (List.mem_cons_of_mem _ hx))
        (add_WF lem t r hWF (hall r (List.mem_cons_self _ _)))
  exact main rules emptyTree (fun r hr => List.all_eq_true.mp h r hr) WFnp_empty

/-- Counterexample to claim C3 as stated: inserting `a + b` and then `a *`
leaves a wildcard node with `min = 0` (index 2, below the node of `a` at
index 1) whose child `b` (index 3) was attached while the wildcard still had
`min = 1` and therefore never appears in the child list of the node of
`a`. -/
theorem C3_zero_hop_counterexample :
    treePS.isWildcardMin0 2 = true ∧ (treePS.node 2).parent = 1 ∧
    3 ∈ (treePS.node 2).childs ∧ 3 ∉ (treePS.node 1).childs := by decide

/-- Claim C3, amended: in a tree built from rules free of the `+` wildcard,
every child of a WildcardNode `P` with `min = 0` also appears in the child
list of the parent of `P` (the zero-hop shortcut). -/
theorem C3_zero_hop_amended (lem : String → List Word) (rules : List Rule)
    (hnp : rules.all (noPlusRule lem) = true) :
    ∀ p c, p < (buildTree lem rules).size →
      (buildTree lem rules).isWildcardMin0 p = true →
      c ∈ ((buildTree lem rules).node p).childs →
      c ∈ ((buildTree lem rules).node
        (((buildTree lem rules).node p).parent)).childs := by
  intro p c hp hm hc
  exact ((buildTree_WF lem rules hnp).2.2.2.2 p hp (isWildcardAt_of_min0 hm)).2.2.2 c hc

/-- Witness for claim C3: in the tree of the single rule `a * b`, the node of
`b` (index 3), child of the zero-min wildcard (index 2), also appears among
the children of the node of `a` (index 1). -/
theorem C3_zero_hop_witness :
    3 ∈ ((buildTree sampleLem [ruleStarB]).node
      (((buildTree sampleLem [ruleStarB]).node 2).parent)).childs :=
  C3_zero_hop_amended sampleLem [ruleStarB] (by decide) 2 3 (by decide) (by decide)
    (by decide)

/-! ## Claim C1: termination -/

/-- Claim C1: the engine always returns.  The loop detector makes the
terminal handler abort immediately on a `(node, offset)` pair that is already
on the terminal stack (no recursion happens on that branch); the expansion
recursion is capped, overrun producing the empty response that the expander
treats as failure; and the whole query pipeline, defined by structural
recursion on the cap, yields a value for every tree, input and state. -/
theorem C1_termination (env : Env) (input : String) (s : EngineState)
    (rec_ : String → EngineState → String × EngineState) (results : ResultList)
    (nodeId offset : Nat) (hdet : (nodeId, offset) ∈ s.detector) :
    handleEndWordP rec_ env s results nodeId offset = (results, s) ∧
    (∀ inp s', recDispatch env 0 inp s' = ("", s')) ∧
    ∃ out, getResponses env input s = out := by
  refine ⟨?_, fun inp s' => rfl, ⟨_, rfl⟩⟩
  unfold handleEndWordP
  simp only []
  rw [if_pos hdet]

/-- Witness for claim C1: with `(0, 0)` already on the terminal stack, the
terminal handler returns its arguments unchanged. -/
theorem C1_termination_witness :
    handleEndWordP (recDispatch sampleEnv 1) sampleEnv ⟨[], [], [(0, 0)]⟩ [] 0 0 =
      ([], ⟨[], [], [(0, 0)]⟩) :=
  (C1_termination sampleEnv "" ⟨[], [], [(0, 0)]⟩ (recDispatch sampleEnv 1) [] 0 0
    (by decide)).1

end Nlp
